import Mathlib

/-! Shallow embedding of the gamma-correction core of src/app.py.

The backend function is

    def adjust_gamma(image, gamma=1.0):
        invGamma = 1.0 / gamma
        table = np.array([((i / 255.0) ** invGamma) * 255
                          for i in np.arange(0, 256)]).astype("uint8")
        return cv2.LUT(image, table)

Float arithmetic is modelled by real arithmetic.  The division
1.0 / gamma is plain Python float division and raises
ZeroDivisionError on gamma = 0; inside the comprehension, i ranges
over np.arange(0, 256), so i / 255.0 is a numpy float64 scalar and the
power is numpy scalar arithmetic, which never raises: 0.0 raised to a
negative power yields +inf and emits a RuntimeWarning.  The
ZeroDivisionError and the OpenCV assertion failure raised by cv2.LUT
on a source whose element depth is not 8-bit are modelled by an
explicit error monad; the infinity is modelled by an explicit
non-finite float value. -/

namespace MedGamm

/-- Element types a numpy array can carry.  Only whether the type has
8-bit depth matters to cv2.LUT, which checks the depth of its source
before doing anything with the data. -/
inductive Dtype where
  | uint8
  | int8
  | uint16
  | int32
  | float32
  | float64
  deriving DecidableEq

/-- A numpy ndarray: an element type, a shape, and the flattened
row-major sample data.  Non-integer dtypes are modelled by their dtype
tag alone, which is all cv2.LUT inspects before rejecting them. -/
structure NDArray where
  dtype : Dtype
  shape : List Nat
  data : List Int
  deriving DecidableEq

/-- Rows of a 2-D array (first shape entry). -/
def NDArray.rows (a : NDArray) : Nat := a.shape.getD 0 0

/-- Columns of a 2-D array (second shape entry). -/
def NDArray.cols (a : NDArray) : Nat := a.shape.getD 1 0

/-- Sample at row r, column c of a 2-D array. -/
def NDArray.at2 (a : NDArray) (r c : Nat) : Int :=
  a.data.getD (r * a.cols + c) 0

/-- A valid input image in the sense of the spec: 2-D, single-channel,
8-bit, every sample in [0, 255]. -/
def NDArray.validImage (a : NDArray) : Prop :=
  a.dtype = Dtype.uint8 ∧ a.shape.length = 2 ∧
    a.data.length = a.rows * a.cols ∧ ∀ v ∈ a.data, 0 ≤ v ∧ v ≤ 255

instance (a : NDArray) : Decidable a.validImage := by
  unfold NDArray.validImage; infer_instance

/-- Errors: the Python ZeroDivisionError, the OpenCV assertion error,
and the two error kinds that the spec names.  The code itself never
raises the latter two; they are present so that the spec claims about
them can be stated and compared with what the code raises. -/
inductive PyError where
  | zeroDivisionError
  | cvError
  | invalidParameter
  | invalidInput
  deriving DecidableEq

/-- Python float division: a zero divisor raises ZeroDivisionError. -/
noncomputable def pyDiv (x y : ℝ) : Except PyError ℝ :=
  if y = 0 then .error .zeroDivisionError else .ok (x / y)

/-- A numpy float64 value as it occurs in the table comprehension:
either a finite real or the IEEE positive infinity that 0.0 raised to
a negative power produces.  NaN never arises here, since the base
i / 255.0 is always a nonnegative finite value. -/
inductive F64 where
  | fin (x : ℝ)
  | inf

/-- Numpy float64 power, as evaluated inside the comprehension (i
ranges over np.arange, so i / 255.0 is a numpy float64 scalar, not a
Python float): 0.0 raised to a negative power yields +inf and emits a
RuntimeWarning instead of raising; every other case arising here is
the finite real power, on which Real.rpow agrees with IEEE pow for a
base in [0, 1], including 0.0 ** 0.0 = 1.0. -/
noncomputable def npPow (x y : ℝ) : F64 :=
  if x = 0 ∧ y < 0 then F64.inf else F64.fin (x ^ y)

/-- Multiplication of a float64 by the positive constant 255. -/
noncomputable def F64.mul255 : F64 → F64
  | F64.fin x => F64.fin (x * 255)
  | F64.inf => F64.inf

/-- The numpy astype uint8 cast on a finite value: truncation toward
zero, then the C-style wrap modulo 256. -/
noncomputable def toUint8 (x : ℝ) : Int :=
  (if 0 ≤ x then ⌊x⌋ else ⌈x⌉) % 256

/-- The numpy astype uint8 cast on a float64.  Casting a non-finite
value is undefined behavior in C; the byte produced is platform
dependent and is fixed here as 0, the x86 result; no theorem below
depends on that choice. -/
noncomputable def toUint8F : F64 → Int
  | F64.fin x => toUint8 x
  | F64.inf => 0

/-- One entry of the lookup table: ((i / 255.0) ** invGamma) * 255,
cast to uint8.  Numpy scalar arithmetic raises no exception, so every
entry evaluates to a byte (for a negative invGamma, a garbage one). -/
noncomputable def tableEntry (invGamma : ℝ) (i : Nat) : Except PyError Int :=
  Except.ok (toUint8F (F64.mul255 (npPow ((i : ℝ) / 255) invGamma)))

/-- The 256-entry lookup table built by adjust_gamma.  The Python list
comprehension evaluates the entries for i = 0, 1, ..., 255 in order;
since numpy scalar arithmetic raises nothing, the construction always
completes. -/
noncomputable def buildTable (invGamma : ℝ) : Except PyError (List Int) :=
  (List.range 256).mapM (tableEntry invGamma)

/-- Whether a dtype has 8-bit depth (CV_8U or CV_8S), the only depths
cv2.LUT accepts for its source. -/
def Dtype.is8bit : Dtype → Bool
  | Dtype.uint8 => true
  | Dtype.int8 => true
  | _ => false

/-- cv2.LUT: requires an 8-bit source (of any shape and channel count)
and a 256-entry table; maps every sample through the table, indexing
by the byte value; the output keeps the shape of the source and takes
the element type of the table, which is uint8 in this program. -/
def cvLUT (src : NDArray) (table : List Int) : Except PyError NDArray :=
  if src.dtype.is8bit = true ∧ table.length = 256 then
    .ok ⟨Dtype.uint8, src.shape, src.data.map fun v => table.getD (v % 256).toNat 0⟩
  else .error .cvError

/-- The backend function adjust_gamma of src/app.py. -/
noncomputable def adjust_gamma (image : NDArray) (gamma : ℝ) : Except PyError NDArray := do
  let invGamma ← pyDiv 1 gamma
  let table ← buildTable invGamma
  cvLUT image table

/-- The value of a table entry on the non-error path, as a function of
the exponent and the index. -/
noncomputable def tableFun (invGamma : ℝ) (i : Nat) : Int :=
  toUint8 (((i : ℝ) / 255) ^ invGamma * 255)

/-- The lookup table as a plain list, on the non-error path. -/
noncomputable def tableList (invGamma : ℝ) : List Int :=
  (List.range 256).map (tableFun invGamma)

/-- The value of a table entry as a total function of the exponent and
the index (numpy power never raises, so every entry has a value). -/
noncomputable def tableFunF (invGamma : ℝ) (i : Nat) : Int :=
  toUint8F (F64.mul255 (npPow ((i : ℝ) / 255) invGamma))

/-- The full lookup table as a list, for an arbitrary exponent. -/
noncomputable def tableListF (invGamma : ℝ) : List Int :=
  (List.range 256).map (tableFunF invGamma)

theorem pyDiv_ok (x y : ℝ) (h : y ≠ 0) : pyDiv x y = Except.ok (x / y) := by
  simp [pyDiv, h]

theorem pyDiv_zero (x : ℝ) : pyDiv x 0 = Except.error PyError.zeroDivisionError := by
  simp [pyDiv]

theorem npPow_ok (x y : ℝ) (h : ¬(x = 0 ∧ y < 0)) : npPow x y = F64.fin (x ^ y) := by
  simp only [npPow, if_neg h]

theorem npPow_zero_neg (y : ℝ) (hy : y < 0) : npPow 0 y = F64.inf := by
  simp [npPow, hy]

theorem tableEntry_eq (z : ℝ) (i : Nat) : tableEntry z i = Except.ok (tableFunF z i) := rfl

theorem tableFunF_eq (z : ℝ) (hz : 0 ≤ z) (i : Nat) : tableFunF z i = tableFun z i := by
  have h : ¬(((i : ℝ) / 255) = 0 ∧ z < 0) := fun hc => absurd hc.2 (not_lt.mpr hz)
  rw [tableFunF, npPow_ok _ _ h]
  rfl

theorem tableEntry_ok (z : ℝ) (hz : 0 ≤ z) (i : Nat) :
    tableEntry z i = Except.ok (tableFun z i) := by
  rw [tableEntry_eq, tableFunF_eq z hz i]

theorem mapM_ok {α β : Type} (f : α → Except PyError β) (g : α → β) :
    ∀ l : List α, (∀ a ∈ l, f a = Except.ok (g a)) → l.mapM f = Except.ok (l.map g) := by
  intro l
  induction l with
  | nil => intro _; rfl
  | cons x xs ih =>
    intro h
    rw [List.mapM_cons, h x (List.mem_cons_self x xs),
      ih (fun a ha => h a (List.mem_cons_of_mem x ha))]
    rfl

theorem buildTable_ok (z : ℝ) (hz : 0 ≤ z) : buildTable z = Except.ok (tableList z) := by
  exact mapM_ok _ _ _ (fun i _ => tableEntry_ok z hz i)

theorem buildTable_total (z : ℝ) : buildTable z = Except.ok (tableListF z) := by
  exact mapM_ok _ _ _ (fun i _ => tableEntry_eq z i)

theorem tableList_length (z : ℝ) : (tableList z).length = 256 := by
  simp [tableList]

theorem tableListF_length (z : ℝ) : (tableListF z).length = 256 := by
  simp [tableListF]

theorem getD_map_range (f : Nat → Int) (n i : Nat) (h : i < n) :
    ((List.range n).map f).getD i 0 = f i := by
  rw [List.getD_eq_getElem?_getD, List.getElem?_map, List.getElem?_range h]
  rfl

theorem tableList_getD (z : ℝ) (i : Nat) (hi : i < 256) :
    (tableList z).getD i 0 = tableFun z i :=
  getD_map_range _ _ _ hi

theorem getD_map (f : Int → Int) (l : List Int) (i : Nat) (h : i < l.length) :
    (l.map f).getD i 0 = f (l.getD i 0) := by
  rw [List.getD_eq_getElem?_getD, List.getElem?_map,
    List.getElem?_eq_getElem h, List.getD_eq_getElem?_getD, List.getElem?_eq_getElem h]
  rfl

theorem getD_mem (l : List Int) (i : Nat) (h : i < l.length) : l.getD i 0 ∈ l := by
  rw [List.getD_eq_getElem?_getD, List.getElem?_eq_getElem h]
  exact List.getElem_mem h

theorem pow_term_nonneg (z : ℝ) (i : Nat) : 0 ≤ ((i : ℝ) / 255) ^ z * 255 := by
  have hx : (0 : ℝ) ≤ (i : ℝ) / 255 := div_nonneg (Nat.cast_nonneg i) (by norm_num)
  exact mul_nonneg (Real.rpow_nonneg hx z) (by norm_num)

theorem pow_term_le (z : ℝ) (hz : 0 ≤ z) (i : Nat) (hi : i ≤ 255) :
    ((i : ℝ) / 255) ^ z * 255 ≤ 255 := by
  have hx : (0 : ℝ) ≤ (i : ℝ) / 255 := div_nonneg (Nat.cast_nonneg i) (by norm_num)
  have hx1 : (i : ℝ) / 255 ≤ 1 := by
    rw [div_le_one (by norm_num : (0 : ℝ) < 255)]
    exact_mod_cast hi
  have := Real.rpow_le_one hx hx1 hz
  nlinarith

theorem toUint8_eq_floor (x : ℝ) (h0 : 0 ≤ x) (h255 : x ≤ 255) :
    toUint8 x = ⌊x⌋ ∧ 0 ≤ ⌊x⌋ ∧ ⌊x⌋ ≤ 255 := by
  have hf0 : 0 ≤ ⌊x⌋ := Int.floor_nonneg.mpr h0
  have hf255 : ⌊x⌋ ≤ 255 := by
    have := Int.floor_le_floor h255
    simpa using this
  refine ⟨?_, hf0, hf255⟩
  rw [toUint8, if_pos h0]
  exact Int.emod_eq_of_lt hf0 (by omega)

theorem tableFun_spec (z : ℝ) (hz : 0 ≤ z) (i : Nat) (hi : i ≤ 255) :
    tableFun z i = ⌊((i : ℝ) / 255) ^ z * 255⌋ ∧
      0 ≤ tableFun z i ∧ tableFun z i ≤ 255 := by
  have h := toUint8_eq_floor _ (pow_term_nonneg z i) (pow_term_le z hz i hi)
  rw [tableFun]
  exact ⟨h.1, h.1 ▸ h.2.1, h.1 ▸ h.2.2⟩

theorem tableFun_zero (z : ℝ) (hz : z ≠ 0) : tableFun z 0 = 0 := by
  have h : ((0 : Nat) : ℝ) / 255 = 0 := by norm_num
  rw [tableFun, h, Real.zero_rpow hz, zero_mul, toUint8, if_pos le_rfl]
  simp

theorem tableFun_top (z : ℝ) : tableFun z 255 = 255 := by
  have h : ((255 : Nat) : ℝ) / 255 = 1 := by norm_num
  rw [tableFun, h, Real.one_rpow, one_mul, toUint8, if_pos (by norm_num : (0 : ℝ) ≤ 255)]
  norm_num

theorem tableFun_one (i : Nat) (hi : i ≤ 255) : tableFun 1 i = i := by
  have h : ((i : ℝ) / 255) ^ (1 : ℝ) * 255 = (i : ℝ) := by
    rw [Real.rpow_one, div_mul_cancel₀]
    norm_num
  rw [tableFun, h, toUint8, if_pos (Nat.cast_nonneg i), Int.floor_natCast]
  exact Int.emod_eq_of_lt (by omega) (by omega)

theorem tableFun_mono (z : ℝ) (hz : 0 ≤ z) (a b : Nat) (hab : a ≤ b) (hb : b ≤ 255) :
    tableFun z a ≤ tableFun z b := by
  have ha := tableFun_spec z hz a (le_trans hab hb)
  have hbs := tableFun_spec z hz b hb
  rw [ha.1, hbs.1]
  apply Int.floor_le_floor
  have hx : (0 : ℝ) ≤ (a : ℝ) / 255 := div_nonneg (Nat.cast_nonneg a) (by norm_num)
  have hxy : (a : ℝ) / 255 ≤ (b : ℝ) / 255 := by
    have hc : (a : ℝ) ≤ (b : ℝ) := Nat.cast_le.mpr hab
    gcongr
  have h := Real.rpow_le_rpow hx hxy hz
  exact mul_le_mul_of_nonneg_right h (by norm_num)

theorem except_bind_ok {α β : Type} (a : α) (f : α → Except PyError β) :
    (Except.ok a : Except PyError α) >>= f = f a := rfl

theorem except_bind_error {α β : Type} (e : PyError) (f : α → Except PyError β) :
    (Except.error e : Except PyError α) >>= f = Except.error e := rfl

theorem adjust_gamma_ok (I : NDArray) (γ : ℝ) (hd : I.dtype.is8bit = true) (hγ : 0 < γ) :
    adjust_gamma I γ =
      Except.ok ⟨Dtype.uint8, I.shape,
        I.data.map fun v => (tableList (1 / γ)).getD (v % 256).toNat 0⟩ := by
  have hz : (0 : ℝ) ≤ 1 / γ := le_of_lt (one_div_pos.mpr hγ)
  simp only [adjust_gamma, pyDiv_ok 1 γ (ne_of_gt hγ), except_bind_ok]
  simp only [buildTable_ok _ hz, except_bind_ok]
  simp [cvLUT, hd, tableList_length]

theorem adjust_gamma_gamma_zero (I : NDArray) :
    adjust_gamma I 0 = Except.error PyError.zeroDivisionError := by
  simp only [adjust_gamma, pyDiv_zero, except_bind_error]

theorem adjust_gamma_any (I : NDArray) (γ : ℝ) (hd : I.dtype.is8bit = true) (hγ : γ ≠ 0) :
    adjust_gamma I γ =
      Except.ok ⟨Dtype.uint8, I.shape,
        I.data.map fun v => (tableListF (1 / γ)).getD (v % 256).toNat 0⟩ := by
  simp only [adjust_gamma, pyDiv_ok 1 γ hγ, except_bind_ok]
  simp only [buildTable_total, except_bind_ok]
  simp [cvLUT, hd, tableListF_length]

theorem lut_entry_eq (z : ℝ) (v : Int) (h0 : 0 ≤ v) (h255 : v ≤ 255) :
    (tableList z).getD (v % 256).toNat 0 = tableFun z v.toNat := by
  rw [Int.emod_eq_of_lt h0 (by omega)]
  exact tableList_getD z v.toNat (by omega)

theorem index_lt (r c rows cols : Nat) (hr : r < rows) (hc : c < cols) :
    r * cols + c < rows * cols := by
  calc r * cols + c < r * cols + cols := Nat.add_lt_add_left hc _
    _ = (r + 1) * cols := (Nat.succ_mul r cols).symm
    _ ≤ rows * cols := Nat.mul_le_mul_right cols hr

theorem floor_sqrt (n : ℝ) (k : Int) (hk : 0 ≤ k) (h1 : (k : ℝ) ^ 2 ≤ n)
    (h2 : n < ((k : ℝ) + 1) ^ 2) : ⌊Real.sqrt n⌋ = k := by
  rw [Int.floor_eq_iff]
  constructor
  · exact (Real.le_sqrt (by exact_mod_cast hk) (le_trans (by positivity) h1)).mpr h1
  · have hpos : (0 : ℝ) < (k : ℝ) + 1 := by positivity
    have := (Real.sqrt_lt' hpos).mpr h2
    simpa using this

theorem tableFun_half_eq (i : Nat) (hi : i ≤ 255) :
    tableFun (1 / 2) i = ⌊Real.sqrt ((i : ℝ) * 255)⌋ := by
  have hspec := tableFun_spec (1 / 2) (by norm_num) i hi
  rw [hspec.1, ← Real.sqrt_eq_rpow]
  have hx : (0 : ℝ) ≤ (i : ℝ) / 255 := div_nonneg (Nat.cast_nonneg i) (by norm_num)
  have h255 : (255 : ℝ) = Real.sqrt ((255 : ℝ) ^ 2) := (Real.sqrt_sq (by norm_num)).symm
  rw [show Real.sqrt ((i : ℝ) / 255) * 255 = Real.sqrt ((i : ℝ) / 255 * (255 : ℝ) ^ 2) from by
    rw [Real.sqrt_mul hx ((255 : ℝ) ^ 2), ← h255]]
  congr 2
  field_simp
  ring

/-- C3: for every valid image I (2-D array of values in [0, 255]),
transform(I, 1.0) is bit-identical to I. -/
theorem transform_identity_at_one (I : NDArray) (hI : I.validImage) :
    adjust_gamma I 1 = Except.ok I := by
  obtain ⟨hdt, hsl, hlen, hvals⟩ := hI
  have hd : I.dtype.is8bit = true := by rw [hdt]; rfl
  rw [adjust_gamma_ok I 1 hd one_pos]
  have h1 : (1 : ℝ) / 1 = 1 := by norm_num
  obtain ⟨dt, sh, da⟩ := I
  simp only at hdt hvals
  subst hdt
  simp only [Except.ok.injEq, NDArray.mk.injEq]
  refine ⟨trivial, trivial, ?_⟩
  rw [h1]
  have hmap : ∀ v ∈ da, (tableList 1).getD (v % 256).toNat 0 = v := by
    intro v hv
    obtain ⟨h0, h255⟩ := hvals v hv
    rw [lut_entry_eq 1 v h0 h255, tableFun_one v.toNat (by omega)]
    omega
  calc da.map (fun v => (tableList 1).getD (v % 256).toNat 0)
      = da.map id := List.map_congr_left hmap
    _ = da := List.map_id da

/-- Witness for C3 at a concrete valid image. -/
theorem transform_identity_at_one_witness :
    (NDArray.mk Dtype.uint8 [2, 2] [0, 7, 128, 255]).validImage ∧
      adjust_gamma (NDArray.mk Dtype.uint8 [2, 2] [0, 7, 128, 255]) 1 =
        Except.ok (NDArray.mk Dtype.uint8 [2, 2] [0, 7, 128, 255]) :=
  ⟨by decide, transform_identity_at_one _ (by decide)⟩

/-- C1: for every image with values in [0, 255] and every gamma > 0,
adjust_gamma builds a 256-entry table whose entry i is
((i / 255) ^ (1 / gamma)) * 255 truncated toward zero to an integer in
[0, 255], and produces the output by output[r][c] = table[image[r][c]]
for every pixel, preserving shape exactly. -/
theorem transform_table_and_lookup (I : NDArray) (γ : ℝ) (hI : I.validImage) (hγ : 0 < γ) :
    ∃ t out, buildTable (1 / γ) = Except.ok t ∧ t.length = 256 ∧
      (∀ i : Nat, i < 256 →
        t.getD i 0 = ⌊((i : ℝ) / 255) ^ (1 / γ) * 255⌋ ∧
          0 ≤ t.getD i 0 ∧ t.getD i 0 ≤ 255) ∧
      adjust_gamma I γ = Except.ok out ∧ out.shape = I.shape ∧
      ∀ r c, r < I.rows → c < I.cols → out.at2 r c = t.getD (I.at2 r c).toNat 0 := by
  obtain ⟨hdt, hsl, hlen, hvals⟩ := hI
  have hz : (0 : ℝ) ≤ 1 / γ := le_of_lt (one_div_pos.mpr hγ)
  have hd : I.dtype.is8bit = true := by rw [hdt]; rfl
  refine ⟨tableList (1 / γ), _, buildTable_ok _ hz, tableList_length _, ?_,
    adjust_gamma_ok I γ hd hγ, rfl, ?_⟩
  · intro i hi
    rw [tableList_getD _ i hi]
    exact tableFun_spec (1 / γ) hz i (by omega)
  · intro r c hr hc
    have hidx : r * I.cols + c < I.data.length := by
      rw [hlen]; exact index_lt r c I.rows I.cols hr hc
    have hv := hvals (I.data.getD (r * I.cols + c) 0) (getD_mem _ _ hidx)
    show (I.data.map fun v => (tableList (1 / γ)).getD (v % 256).toNat 0).getD
        (r * I.cols + c) 0 = _
    rw [getD_map _ _ _ hidx, lut_entry_eq _ _ hv.1 hv.2,
      show I.at2 r c = I.data.getD (r * I.cols + c) 0 from rfl,
      tableList_getD _ _ (by omega)]

/-- Witness for C1 at a concrete image and gamma = 2. -/
theorem transform_table_and_lookup_witness :
    ((NDArray.mk Dtype.uint8 [1, 2] [0, 255]).validImage ∧ (0 : ℝ) < 2) ∧
      (∃ t out, buildTable (1 / 2) = Except.ok t ∧ t.length = 256 ∧
        (∀ i : Nat, i < 256 →
          t.getD i 0 = ⌊((i : ℝ) / 255) ^ ((1 : ℝ) / 2) * 255⌋ ∧
            0 ≤ t.getD i 0 ∧ t.getD i 0 ≤ 255) ∧
        adjust_gamma (NDArray.mk Dtype.uint8 [1, 2] [0, 255]) 2 = Except.ok out ∧
        out.shape = (NDArray.mk Dtype.uint8 [1, 2] [0, 255]).shape ∧
        ∀ r c, r < (NDArray.mk Dtype.uint8 [1, 2] [0, 255]).rows →
          c < (NDArray.mk Dtype.uint8 [1, 2] [0, 255]).cols →
          out.at2 r c = t.getD ((NDArray.mk Dtype.uint8 [1, 2] [0, 255]).at2 r c).toNat 0) :=
  ⟨⟨by decide, by norm_num⟩, transform_table_and_lookup _ 2 (by decide) (by norm_num)⟩

/-- C4: for every valid image I and every gamma > 0, the transform
succeeds, the output has exactly the dimensions of I, and every output
sample lies in [0, 255]. -/
theorem transform_shape_and_range (I : NDArray) (γ : ℝ) (hI : I.validImage) (hγ : 0 < γ) :
    ∃ out, adjust_gamma I γ = Except.ok out ∧ out.shape = I.shape ∧
      ∀ v ∈ out.data, 0 ≤ v ∧ v ≤ 255 := by
  obtain ⟨hdt, hsl, hlen, hvals⟩ := hI
  have hz : (0 : ℝ) ≤ 1 / γ := le_of_lt (one_div_pos.mpr hγ)
  have hd : I.dtype.is8bit = true := by rw [hdt]; rfl
  refine ⟨_, adjust_gamma_ok I γ hd hγ, rfl, ?_⟩
  intro v hv
  simp only [List.mem_map] at hv
  obtain ⟨w, hw, rfl⟩ := hv
  obtain ⟨h0, h255⟩ := hvals w hw
  rw [lut_entry_eq _ _ h0 h255]
  exact ⟨(tableFun_spec _ hz _ (by omega)).2.1, (tableFun_spec _ hz _ (by omega)).2.2⟩

/-- Witness for C4 at a concrete image and gamma = 3. -/
theorem transform_shape_and_range_witness :
    ((NDArray.mk Dtype.uint8 [2, 1] [17, 201]).validImage ∧ (0 : ℝ) < 3) ∧
      (∃ out, adjust_gamma (NDArray.mk Dtype.uint8 [2, 1] [17, 201]) 3 = Except.ok out ∧
        out.shape = (NDArray.mk Dtype.uint8 [2, 1] [17, 201]).shape ∧
        ∀ v ∈ out.data, 0 ≤ v ∧ v ≤ 255) :=
  ⟨⟨by decide, by norm_num⟩, transform_shape_and_range _ 3 (by decide) (by norm_num)⟩

/-- C5: for every gamma > 0, the lookup table is monotonically
non-decreasing: for all a ≤ b ≤ 255, table[a] ≤ table[b]. -/
theorem table_monotone (γ : ℝ) (a b : Nat) (hγ : 0 < γ) (hab : a ≤ b) (hb : b ≤ 255) :
    ∃ t, buildTable (1 / γ) = Except.ok t ∧ t.getD a 0 ≤ t.getD b 0 := by
  have hz : (0 : ℝ) ≤ 1 / γ := le_of_lt (one_div_pos.mpr hγ)
  refine ⟨tableList (1 / γ), buildTable_ok _ hz, ?_⟩
  rw [tableList_getD _ a (by omega), tableList_getD _ b (by omega)]
  exact tableFun_mono _ hz a b hab hb

/-- Witness for C5 at gamma = 2, a = 3, b = 7. -/
theorem table_monotone_witness :
    ((0 : ℝ) < 2 ∧ 3 ≤ 7 ∧ 7 ≤ 255) ∧
      (∃ t, buildTable (1 / 2) = Except.ok t ∧ t.getD 3 0 ≤ t.getD 7 0) :=
  ⟨⟨by norm_num, by decide, by decide⟩, table_monotone 2 3 7 (by norm_num) (by decide) (by decide)⟩

/-- C9: for every gamma > 0, the lookup table fixes the extremes,
table[0] = 0 and table[255] = 255, so pure black and pure white pixels
are mapped to themselves by the transform regardless of gamma. -/
theorem table_fixes_extremes (γ : ℝ) (hγ : 0 < γ) :
    ∃ t, buildTable (1 / γ) = Except.ok t ∧ t.getD 0 0 = 0 ∧ t.getD 255 0 = 255 ∧
      ∀ I : NDArray, I.validImage → ∀ out, adjust_gamma I γ = Except.ok out →
        ∀ r c, r < I.rows → c < I.cols →
          (I.at2 r c = 0 → out.at2 r c = 0) ∧ (I.at2 r c = 255 → out.at2 r c = 255) := by
  have hz : (0 : ℝ) ≤ 1 / γ := le_of_lt (one_div_pos.mpr hγ)
  have hz1 : (1 : ℝ) / γ ≠ 0 := ne_of_gt (one_div_pos.mpr hγ)
  refine ⟨tableList (1 / γ), buildTable_ok _ hz, ?_, ?_, ?_⟩
  · rw [tableList_getD _ 0 (by norm_num)]
    exact tableFun_zero _ hz1
  · rw [tableList_getD _ 255 (by norm_num)]
    exact tableFun_top _
  · intro I hI out hout r c hr hc
    obtain ⟨hdt, hsl, hlen, hvals⟩ := hI
    have hd : I.dtype.is8bit = true := by rw [hdt]; rfl
    rw [adjust_gamma_ok I γ hd hγ] at hout
    injection hout with hout
    subst hout
    have hidx : r * I.cols + c < I.data.length := by
      rw [hlen]; exact index_lt r c I.rows I.cols hr hc
    have hv := hvals (I.data.getD (r * I.cols + c) 0) (getD_mem _ _ hidx)
    have hval : ∀ w : Int, I.at2 r c = w →
        (NDArray.mk Dtype.uint8 I.shape
            (I.data.map fun v => (tableList (1 / γ)).getD (v % 256).toNat 0)).at2 r c =
          tableFun (1 / γ) w.toNat := by
      intro w hw
      show (I.data.map fun v => (tableList (1 / γ)).getD (v % 256).toNat 0).getD
          (r * I.cols + c) 0 = _
      rw [getD_map _ _ _ hidx, lut_entry_eq _ _ hv.1 hv.2,
        show I.data.getD (r * I.cols + c) 0 = w from hw]
    constructor
    · intro h0
      rw [hval 0 h0]
      exact tableFun_zero _ hz1
    · intro h255
      rw [hval 255 h255]
      exact tableFun_top _

/-- Witness for C9 at gamma = 2. -/
theorem table_fixes_extremes_witness :
    (0 : ℝ) < 2 ∧
      (∃ t, buildTable (1 / 2) = Except.ok t ∧ t.getD 0 0 = 0 ∧ t.getD 255 0 = 255 ∧
        ∀ I : NDArray, I.validImage → ∀ out, adjust_gamma I 2 = Except.ok out →
          ∀ r c, r < I.rows → c < I.cols →
            (I.at2 r c = 0 → out.at2 r c = 0) ∧ (I.at2 r c = 255 → out.at2 r c = 255)) :=
  ⟨by norm_num, table_fixes_extremes 2 (by norm_num)⟩

/-- C10: for every gamma > 0 and every index i in [0, 255], the value
((i / 255) ^ (1 / gamma)) * 255 computed before the uint8 cast lies in
[0, 255], so the cast never wraps modulo 256: it equals plain floor,
which here coincides with clamping the floor into [0, 255]. -/
theorem cast_in_range_no_wrap (γ : ℝ) (i : Nat) (hγ : 0 < γ) (hi : i ≤ 255) :
    0 ≤ ((i : ℝ) / 255) ^ (1 / γ) * 255 ∧
      ((i : ℝ) / 255) ^ (1 / γ) * 255 ≤ 255 ∧
      toUint8 (((i : ℝ) / 255) ^ (1 / γ) * 255) = ⌊((i : ℝ) / 255) ^ (1 / γ) * 255⌋ ∧
      toUint8 (((i : ℝ) / 255) ^ (1 / γ) * 255) =
        min 255 (max 0 ⌊((i : ℝ) / 255) ^ (1 / γ) * 255⌋) := by
  have hz : (0 : ℝ) ≤ 1 / γ := le_of_lt (one_div_pos.mpr hγ)
  have h0 := pow_term_nonneg (1 / γ) i
  have h255 := pow_term_le (1 / γ) hz i hi
  have hf := toUint8_eq_floor _ h0 h255
  refine ⟨h0, h255, hf.1, ?_⟩
  rw [hf.1]
  have h1 := hf.2.1
  have h2 := hf.2.2
  omega

/-- Witness for C10 at gamma = 2 and i = 7. -/
theorem cast_in_range_no_wrap_witness :
    ((0 : ℝ) < 2 ∧ (7 : ℕ) ≤ 255) ∧
      (0 ≤ (((7 : ℕ) : ℝ) / 255) ^ (1 / (2 : ℝ)) * 255 ∧
        (((7 : ℕ) : ℝ) / 255) ^ (1 / (2 : ℝ)) * 255 ≤ 255 ∧
        toUint8 ((((7 : ℕ) : ℝ) / 255) ^ (1 / (2 : ℝ)) * 255) =
          ⌊(((7 : ℕ) : ℝ) / 255) ^ (1 / (2 : ℝ)) * 255⌋ ∧
        toUint8 ((((7 : ℕ) : ℝ) / 255) ^ (1 / (2 : ℝ)) * 255) =
          min 255 (max 0 ⌊(((7 : ℕ) : ℝ) / 255) ^ (1 / (2 : ℝ)) * 255⌋)) :=
  ⟨⟨by norm_num, by norm_num⟩, cast_in_range_no_wrap 2 7 (by norm_num) (by norm_num)⟩

/-- C2 counterexample: at the concrete image [[7]], transform with
gamma = 0 raises ZeroDivisionError, not the InvalidParameter error the
claim names, and transform with gamma = -1.0 raises no error at all:
it returns a full garbage image. -/
theorem transform_nonpositive_gamma_counterexample :
    adjust_gamma (NDArray.mk Dtype.uint8 [1, 1] [7]) 0 ≠
        Except.error PyError.invalidParameter ∧
      adjust_gamma (NDArray.mk Dtype.uint8 [1, 1] [7]) (-1) ≠
        Except.error PyError.invalidParameter := by
  constructor
  · rw [adjust_gamma_gamma_zero]
    intro h
    exact absurd (Except.error.inj h) (by decide)
  · rw [adjust_gamma_any (NDArray.mk Dtype.uint8 [1, 1] [7]) (-1) rfl (by norm_num)]
    intro h
    exact Except.noConfusion h

/-- C2 amended: transform with gamma = 0 raises ZeroDivisionError
while computing invGamma = 1.0 / gamma, before table construction;
transform with gamma = -1.0 raises nothing: invGamma becomes -1.0, the
numpy float64 power inside the comprehension turns 0.0 into +inf at
index 0 (emitting only a RuntimeWarning), the uint8 cast coerces the
out-of-range values, and for any 8-bit input a complete garbage image
of the input's shape is returned.  No InvalidParameter error exists in
the code, and the non-positive gamma is never rejected: for
gamma = -1.0 the bad value flows through Inf propagation into the
output. -/
theorem transform_nonpositive_gamma_behavior (I : NDArray)
    (hd : I.dtype.is8bit = true) :
    adjust_gamma I 0 = Except.error PyError.zeroDivisionError ∧
      npPow 0 (-1) = F64.inf ∧
      buildTable (-1) = Except.ok (tableListF (-1)) ∧
      ∃ out, adjust_gamma I (-1) = Except.ok out ∧ out.shape = I.shape := by
  refine ⟨adjust_gamma_gamma_zero I, npPow_zero_neg (-1) (by norm_num),
    buildTable_total (-1), ?_⟩
  exact ⟨_, adjust_gamma_any I (-1) hd (by norm_num), rfl⟩

/-- Witness for the amended C2 at a concrete uint8 image. -/
theorem transform_nonpositive_gamma_behavior_witness :
    (NDArray.mk Dtype.uint8 [1, 1] [7]).dtype.is8bit = true ∧
      (adjust_gamma (NDArray.mk Dtype.uint8 [1, 1] [7]) 0 =
          Except.error PyError.zeroDivisionError ∧
        npPow 0 (-1) = F64.inf ∧
        buildTable (-1) = Except.ok (tableListF (-1)) ∧
        ∃ out, adjust_gamma (NDArray.mk Dtype.uint8 [1, 1] [7]) (-1) = Except.ok out ∧
          out.shape = (NDArray.mk Dtype.uint8 [1, 1] [7]).shape) :=
  ⟨rfl, transform_nonpositive_gamma_behavior _ rfl⟩

theorem tableList_half_entry_zero :
    (tableList (1 / (2 : ℝ))).getD ((0 : ℤ) % 256).toNat 0 = 0 := by
  rw [lut_entry_eq _ 0 (by norm_num) (by norm_num)]
  exact tableFun_zero _ (by norm_num)

theorem tableList_half_entry_top :
    (tableList (1 / (2 : ℝ))).getD ((255 : ℤ) % 256).toNat 0 = 255 := by
  rw [lut_entry_eq _ 255 (by norm_num) (by norm_num)]
  exact tableFun_top _

/-- C6 counterexample: the 3-channel 8-bit array of shape [1, 1, 3]
with samples [0, 255, 0] is not 2-D single-channel data, yet the
transform does not fail: cv2.LUT accepts any 8-bit source and maps it
through the table, returning a full result. -/
theorem transform_accepts_multichannel :
    ¬ (NDArray.mk Dtype.uint8 [1, 1, 3] [0, 255, 0]).validImage ∧
      adjust_gamma (NDArray.mk Dtype.uint8 [1, 1, 3] [0, 255, 0]) 2 =
        Except.ok (NDArray.mk Dtype.uint8 [1, 1, 3] [0, 255, 0]) := by
  refine ⟨by decide, ?_⟩
  rw [adjust_gamma_ok (NDArray.mk Dtype.uint8 [1, 1, 3] [0, 255, 0]) 2 rfl (by norm_num)]
  simp only [Except.ok.injEq, NDArray.mk.injEq, List.map_cons, List.map_nil,
    tableList_half_entry_zero, tableList_half_entry_top]

/-- C6 amended: adjust_gamma itself validates nothing; the only
rejection is the one cv2.LUT performs, which checks that the element
depth of its source is 8-bit and otherwise raises the OpenCV error, not
a distinct InvalidInput, and that check happens after the lookup table
is already built; 8-bit inputs of any shape, including multi-channel
ones, are accepted and transformed. -/
theorem transform_rejects_only_non_8bit (I : NDArray) (γ : ℝ)
    (hd : I.dtype.is8bit = false) (hγ : 0 < γ) :
    buildTable (1 / γ) = Except.ok (tableList (1 / γ)) ∧
      adjust_gamma I γ = Except.error PyError.cvError := by
  have hz : (0 : ℝ) ≤ 1 / γ := le_of_lt (one_div_pos.mpr hγ)
  refine ⟨buildTable_ok _ hz, ?_⟩
  simp only [adjust_gamma, pyDiv_ok 1 γ (ne_of_gt hγ), except_bind_ok,
    buildTable_ok _ hz, cvLUT, hd]
  simp

/-- Witness for the amended C6 at a float64 image and gamma = 2. -/
theorem transform_rejects_only_non_8bit_witness :
    ((NDArray.mk Dtype.float64 [1, 1] [0]).dtype.is8bit = false ∧ (0 : ℝ) < 2) ∧
      (buildTable (1 / 2) = Except.ok (tableList (1 / 2)) ∧
        adjust_gamma (NDArray.mk Dtype.float64 [1, 1] [0]) 2 =
          Except.error PyError.cvError) :=
  ⟨⟨rfl, by norm_num⟩, transform_rejects_only_non_8bit _ 2 rfl (by norm_num)⟩

theorem tableFun_half_128 : tableFun (1 / 2) 128 = 180 := by
  rw [tableFun_half_eq 128 (by norm_num),
    show ((128 : Nat) : ℝ) * 255 = 32640 from by norm_num]
  exact floor_sqrt 32640 180 (by norm_num) (by norm_num) (by norm_num)

theorem tableFun_half_64 : tableFun (1 / 2) 64 = 127 := by
  rw [tableFun_half_eq 64 (by norm_num),
    show ((64 : Nat) : ℝ) * 255 = 16320 from by norm_num]
  exact floor_sqrt 16320 127 (by norm_num) (by norm_num) (by norm_num)

theorem tableList_half_entry_128 :
    (tableList (1 / (2 : ℝ))).getD ((128 : ℤ) % 256).toNat 0 = 180 := by
  rw [lut_entry_eq _ 128 (by norm_num) (by norm_num)]
  exact tableFun_half_128

theorem tableList_half_entry_64 :
    (tableList (1 / (2 : ℝ))).getD ((64 : ℤ) % 256).toNat 0 = 127 := by
  rw [lut_entry_eq _ 64 (by norm_num) (by norm_num)]
  exact tableFun_half_64

/-- C8: on the 2 by 2 input [[0, 128], [255, 64]] with gamma = 2, the
transform produces [[0, 180], [255, 127]], which matches the expected
[[0, 180], [255, 128]] within the allowed tolerance of 1 per entry, and
the table maps 0 to 0 and 255 to 255 exactly. -/
theorem transform_concrete_gamma_two :
    ∃ out, adjust_gamma (NDArray.mk Dtype.uint8 [2, 2] [0, 128, 255, 64]) 2 =
        Except.ok out ∧
      out.shape = [2, 2] ∧ out.data = [0, 180, 255, 127] ∧
      out.at2 0 0 = 0 ∧ |out.at2 0 1 - 180| ≤ 1 ∧
      out.at2 1 0 = 255 ∧ |out.at2 1 1 - 128| ≤ 1 ∧
      ∃ t, buildTable (1 / 2) = Except.ok t ∧ t.getD 0 0 = 0 ∧ t.getD 255 0 = 255 := by
  refine ⟨NDArray.mk Dtype.uint8 [2, 2] [0, 180, 255, 127], ?_, rfl, rfl,
    by decide, by decide, by decide, by decide,
    tableList (1 / 2), buildTable_ok _ (by norm_num), ?_, ?_⟩
  · rw [adjust_gamma_ok (NDArray.mk Dtype.uint8 [2, 2] [0, 128, 255, 64]) 2 rfl (by norm_num)]
    simp only [Except.ok.injEq, NDArray.mk.injEq, List.map_cons, List.map_nil,
      tableList_half_entry_zero, tableList_half_entry_128,
      tableList_half_entry_top, tableList_half_entry_64]
  · rw [tableList_getD _ 0 (by norm_num)]
    exact tableFun_zero _ (by norm_num)
  · rw [tableList_getD _ 255 (by norm_num)]
    exact tableFun_top _

end MedGamm
